import Mathlib

/-!
Verification of the booking-analytics aggregation core: pipeline A
(`analyze_booking_data` and the load/clean steps of `main` in app.py) and
pipeline B (`process_data` and the surrounding module-level code in app2.py),
shallowly embedded over lists.  Pandas/NumPy library operations the source
delegates to (group-by, stable value sort, `to_numeric` coercion, `strptime`
style date parsing) are modelled by explicit executable functions below.
-/

namespace Booking

/-! ## Generic list machinery

`pandas.DataFrame.sort_values` with its default `kind='quicksort'` guarantees
only a sorted permutation of the rows — the relative order of equal keys is
not specified.  `stableSort` below is one concrete admissible outcome (a
stable insertion sort), used where the pipeline needs an executable choice;
every property that depends on the order of equal keys is stated over an
arbitrary sorted permutation instead, never over this particular choice.
`dedupFirstBy` models `DataFrame.drop_duplicates(subset=[k])`: the first row
of each key survives, in input order.  `lt y x = true` means `y` must come
strictly before `x`. -/

def stableInsert (lt : α → α → Bool) (x : α) : List α → List α
  | [] => [x]
  | y :: ys => if lt y x then y :: stableInsert lt x ys else x :: y :: ys

def stableSort (lt : α → α → Bool) : List α → List α
  | [] => []
  | x :: xs => stableInsert lt x (stableSort lt xs)

def dedupFirstByAux (key : α → κ) [DecidableEq κ] (seen : List κ) : List α → List α
  | [] => []
  | x :: xs =>
    if key x ∈ seen then dedupFirstByAux key seen xs
    else x :: dedupFirstByAux key (key x :: seen) xs

def dedupFirstBy (key : α → κ) [DecidableEq κ] (l : List α) : List α :=
  dedupFirstByAux key [] l

theorem stableInsert_perm (lt : α → α → Bool) (x : α) (l : List α) :
    List.Perm (stableInsert lt x l) (x :: l) := by
  induction l with
  | nil => simp [stableInsert]
  | cons y ys ih =>
    simp only [stableInsert]
    split
    · exact (ih.cons y).trans (List.Perm.swap x y ys)
    · exact List.Perm.refl _

theorem stableSort_perm (lt : α → α → Bool) (l : List α) :
    List.Perm (stableSort lt l) l := by
  induction l with
  | nil => exact List.Perm.refl _
  | cons x xs ih => exact (stableInsert_perm lt x _).trans (ih.cons x)

theorem pairwise_stableInsert (lt : α → α → Bool)
    (hasym : ∀ a b, lt a b = true → lt b a = false)
    (htr : ∀ a b c, lt b a = false → lt c b = false → lt c a = false)
    (x : α) (l : List α)
    (h : List.Pairwise (fun a b => lt b a = false) l) :
    List.Pairwise (fun a b => lt b a = false) (stableInsert lt x l) := by
  induction l with
  | nil => simp [stableInsert]
  | cons y ys ih =>
    rcases List.pairwise_cons.mp h with ⟨hy, hys⟩
    simp only [stableInsert]
    split
    case isTrue hlt =>
      refine List.pairwise_cons.mpr ⟨?_, ih hys⟩
      intro z hz
      rcases List.mem_cons.mp ((stableInsert_perm lt x ys).mem_iff.mp hz) with rfl | hz'
      · exact hasym _ _ hlt
      · exact hy z hz'
    case isFalse hlt =>
      refine List.pairwise_cons.mpr ⟨?_, h⟩
      intro z hz
      have hyx : lt y x = false := Bool.eq_false_iff.mpr hlt
      rcases List.mem_cons.mp hz with rfl | hz'
      · exact hyx
      · exact htr x y z hyx (hy z hz')

theorem pairwise_stableSort (lt : α → α → Bool)
    (hasym : ∀ a b, lt a b = true → lt b a = false)
    (htr : ∀ a b c, lt b a = false → lt c b = false → lt c a = false)
    (l : List α) :
    List.Pairwise (fun a b => lt b a = false) (stableSort lt l) := by
  induction l with
  | nil => simp [stableSort]
  | cons x xs ih => exact pairwise_stableInsert lt hasym htr x _ ih

theorem filter_stableInsert (lt : α → α → Bool) (p : α → Bool) (x : α) (l : List α)
    (hcomp : ∀ y, p y = true → p x = true → lt y x = false) :
    List.filter p (stableInsert lt x l) =
      if p x then x :: List.filter p l else List.filter p l := by
  induction l with
  | nil => simp [stableInsert, List.filter_cons]
  | cons y ys ih =>
    simp only [stableInsert]
    split
    case isTrue hlt =>
      by_cases hpy : p y = true
      · by_cases hpx : p x = true
        · rw [hcomp y hpy hpx] at hlt
          exact Bool.noConfusion hlt
        · have hpx' : p x = false := Bool.eq_false_iff.mpr hpx
          simp [List.filter_cons, hpy, hpx', ih]
      · have hpy' : p y = false := Bool.eq_false_iff.mpr hpy
        simp [List.filter_cons, hpy', ih]
    case isFalse hlt =>
      simp [List.filter_cons]

/-- A stable sort never reorders the elements sharing one key: filtering the
sorted list down to one key value gives back the input's rows for that key,
in input order. -/
theorem filter_stableSort (lt : α → α → Bool) (p : α → Bool) (l : List α)
    (hcomp : ∀ a b, p a = true → p b = true → lt a b = false) :
    List.filter p (stableSort lt l) = List.filter p l := by
  induction l with
  | nil => rfl
  | cons x xs ih =>
    simp only [stableSort]
    rw [filter_stableInsert lt p x _ (fun y hy hx => hcomp y x hy hx), ih,
      List.filter_cons]

theorem mem_of_mem_dedupFirstByAux (key : α → κ) [DecidableEq κ]
    (seen : List κ) (l : List α) (a : α)
    (h : a ∈ dedupFirstByAux key seen l) : a ∈ l := by
  induction l generalizing seen with
  | nil => simp [dedupFirstByAux] at h
  | cons x xs ih =>
    simp only [dedupFirstByAux] at h
    split at h
    · exact List.mem_cons_of_mem _ (ih seen h)
    · rcases List.mem_cons.mp h with rfl | h'
      · exact List.mem_cons_self _ _
      · exact List.mem_cons_of_mem _ (ih _ h')

theorem mem_map_key_dedupFirstByAux (key : α → κ) [DecidableEq κ]
    (seen : List κ) (l : List α) (b : κ) :
    b ∈ (dedupFirstByAux key seen l).map key ↔ b ∉ seen ∧ b ∈ l.map key := by
  induction l generalizing seen with
  | nil => simp [dedupFirstByAux]
  | cons x xs ih =>
    simp only [dedupFirstByAux]
    split
    case isTrue hmem =>
      rw [ih]
      simp only [List.map_cons, List.mem_cons]
      constructor
      · rintro ⟨hb, hb'⟩; exact ⟨hb, Or.inr hb'⟩
      · rintro ⟨hb, hb'⟩
        refine ⟨hb, ?_⟩
        rcases hb' with rfl | hb'
        · exact absurd hmem hb
        · exact hb'
    case isFalse hmem =>
      simp only [List.map_cons, List.mem_cons, ih]
      constructor
      · rintro (rfl | ⟨hb, hb'⟩)
        · exact ⟨hmem, Or.inl rfl⟩
        · exact ⟨fun hs => hb (Or.inr hs), Or.inr hb'⟩
      · rintro ⟨hb, rfl | hb'⟩
        · exact Or.inl rfl
        · by_cases hk : b = key x
          · exact Or.inl hk
          · exact Or.inr ⟨by simp [List.mem_cons, hk, hb], hb'⟩

theorem nodup_map_key_dedupFirstByAux (key : α → κ) [DecidableEq κ]
    (seen : List κ) (l : List α) :
    ((dedupFirstByAux key seen l).map key).Nodup := by
  induction l generalizing seen with
  | nil => simp [dedupFirstByAux]
  | cons x xs ih =>
    simp only [dedupFirstByAux]
    split
    · exact ih seen
    · simp only [List.map_cons, List.nodup_cons]
      refine ⟨fun hmem => ?_, ih _⟩
      exact ((mem_map_key_dedupFirstByAux key _ xs (key x)).mp hmem).1
        (List.mem_cons_self _ _)

theorem mem_map_key_dedupFirstBy (key : α → κ) [DecidableEq κ]
    (l : List α) (b : κ) :
    b ∈ (dedupFirstBy key l).map key ↔ b ∈ l.map key := by
  rw [dedupFirstBy, mem_map_key_dedupFirstByAux]
  simp

theorem nodup_map_key_dedupFirstBy (key : α → κ) [DecidableEq κ] (l : List α) :
    ((dedupFirstBy key l).map key).Nodup :=
  nodup_map_key_dedupFirstByAux key [] l

theorem dedupFirstByAux_congr_seen (key : α → κ) [DecidableEq κ]
    (seen seen' : List κ) (hs : ∀ k, k ∈ seen ↔ k ∈ seen') (l : List α) :
    dedupFirstByAux key seen l = dedupFirstByAux key seen' l := by
  induction l generalizing seen seen' with
  | nil => rfl
  | cons x xs ih =>
    simp only [dedupFirstByAux]
    by_cases hmem : key x ∈ seen
    · rw [if_pos hmem, if_pos ((hs _).mp hmem)]
      exact ih seen seen' hs
    · rw [if_neg hmem, if_neg (fun hc => hmem ((hs _).mpr hc))]
      congr 1
      refine ih _ _ (fun k => ?_)
      simp only [List.mem_cons]
      exact or_congr Iff.rfl (hs k)

theorem dedupFirstByAux_seen_irrelevant (key : α → κ) [DecidableEq κ]
    (k : κ) (seen : List κ) (l : List α) (h : ∀ y ∈ l, key y ≠ k) :
    dedupFirstByAux key (k :: seen) l = dedupFirstByAux key seen l := by
  induction l generalizing seen with
  | nil => rfl
  | cons x xs ih =>
    have hk : key x ≠ k := h x (List.mem_cons_self _ _)
    have hrest : ∀ y ∈ xs, key y ≠ k := fun y hy => h y (List.mem_cons_of_mem _ hy)
    simp only [dedupFirstByAux, List.mem_cons, hk, false_or]
    split
    · exact ih seen hrest
    · congr 1
      calc dedupFirstByAux key (key x :: k :: seen) xs
          = dedupFirstByAux key (k :: key x :: seen) xs :=
            dedupFirstByAux_congr_seen key _ _
              (fun a => by simp only [List.mem_cons]; tauto) xs
        _ = dedupFirstByAux key (key x :: seen) xs := ih (key x :: seen) hrest

/-- `drop_duplicates` commutes with a row filter whose truth is a function of
the deduplication key (rows sharing a key agree on the filter). -/
theorem dedupFirstByAux_filter (key : α → κ) [DecidableEq κ]
    (p : α → Bool) (seen : List κ) (l : List α)
    (hdet : ∀ x ∈ l, ∀ y ∈ l, key x = key y → p x = p y) :
    dedupFirstByAux key seen (l.filter p) =
      List.filter p (dedupFirstByAux key seen l) := by
  induction l generalizing seen with
  | nil => rfl
  | cons x xs ih =>
    have hdet' : ∀ a ∈ xs, ∀ b ∈ xs, key a = key b → p a = p b :=
      fun a ha b hb => hdet a (List.mem_cons_of_mem _ ha) b (List.mem_cons_of_mem _ hb)
    by_cases hpx : p x = true
    · rw [List.filter_cons_of_pos hpx]
      simp only [dedupFirstByAux]
      split
      · exact ih seen hdet'
      · rw [List.filter_cons_of_pos hpx, ih (key x :: seen) hdet']
    · have hpx' : p x = false := Bool.eq_false_iff.mpr hpx
      rw [List.filter_cons_of_neg (by simp [hpx'])]
      simp only [dedupFirstByAux]
      split
      · exact ih seen hdet'
      · rw [List.filter_cons_of_neg (by simp [hpx']), ← ih (key x :: seen) hdet']
        refine (dedupFirstByAux_seen_irrelevant key (key x) seen (xs.filter p) ?_).symm
        intro y hy hc
        rcases List.mem_filter.mp hy with ⟨hyxs, hpy⟩
        have := hdet y (List.mem_cons_of_mem _ hyxs) x (List.mem_cons_self _ _) hc
        rw [hpy] at this
        rw [← this] at hpx'
        exact Bool.noConfusion hpx'

theorem dedupFirstBy_filter (key : α → κ) [DecidableEq κ]
    (p : α → Bool) (l : List α)
    (hdet : ∀ x ∈ l, ∀ y ∈ l, key x = key y → p x = p y) :
    dedupFirstBy key (l.filter p) = List.filter p (dedupFirstBy key l) :=
  dedupFirstByAux_filter key p [] l hdet

/-- Summing, over a duplicate-free list of keys covering every row, the number
of rows carrying each key partitions the rows: the counts add up to the number
of rows. -/
theorem sum_countP_keys [DecidableEq κ] (keys : List κ) (hnd : keys.Nodup)
    (rows : List α) (key : α → κ) (hall : ∀ r ∈ rows, key r ∈ keys) :
    (keys.map (fun c => rows.countP (fun r => decide (key r = c)))).sum
      = rows.length := by
  induction rows with
  | nil => simp
  | cons r rs ih =>
    have hall' : ∀ a ∈ rs, key a ∈ keys := fun a ha => hall a (List.mem_cons_of_mem _ ha)
    have hr : key r ∈ keys := hall r (List.mem_cons_self _ _)
    have hsum1 : (keys.map (fun c => if key r = c then 1 else 0)).sum = 1 := by
      clear hall hall' ih
      induction keys with
      | nil => simp at hr
      | cons c cs ihk =>
        rcases List.nodup_cons.mp hnd with ⟨hc, hcs⟩
        by_cases hkc : key r = c
        · subst hkc
          have hzero : (cs.map (fun c => if key r = c then 1 else 0)).sum = 0 := by
            refine List.sum_eq_zero (fun n hn => ?_)
            rcases List.mem_map.mp hn with ⟨d, hd, rfl⟩
            have : key r ≠ d := fun hc' => hc (hc' ▸ hd)
            simp [this]
          simp [hzero]
        · have hr' : key r ∈ cs := by
            rcases List.mem_cons.mp hr with h | h
            · exact absurd h hkc
            · exact h
          simp only [List.map_cons, List.sum_cons, if_neg hkc, Nat.zero_add]
          exact ihk hcs hr'
    calc (keys.map (fun c => (r :: rs).countP (fun a => decide (key a = c)))).sum
        = (keys.map (fun c => rs.countP (fun a => decide (key a = c))
            + if key r = c then 1 else 0)).sum := by
          refine congrArg List.sum (List.map_congr_left (fun c _ => ?_))
          rw [List.countP_cons]
          by_cases h : key r = c <;> simp [h]
      _ = (keys.map (fun c => rs.countP (fun a => decide (key a = c)))).sum
            + (keys.map (fun c => if key r = c then 1 else 0)).sum := by
          rw [← List.sum_map_add]
      _ = rs.length + 1 := by rw [ih hall', hsum1]
      _ = (r :: rs).length := by simp [Nat.add_comm]



/-! ## Shared character-level helpers

Models of the character classes used by the source's regular expressions and
numeric coercion (`re` patterns `\s`, `\d`; `str.strip`; float literals). -/

def isSpaceChar (c : Char) : Bool :=
  c == ' ' || c == '\t' || c == '\n' || c == '\r' || c == '\x0b' || c == '\x0c'

def takeRun (p : Char → Bool) : List Char → List Char × List Char
  | [] => ([], [])
  | c :: cs =>
    if p c then
      let r := takeRun p cs
      (c :: r.1, r.2)
    else ([], c :: cs)

def digitsVal (ds : List Char) : Nat :=
  ds.foldl (fun acc c => 10 * acc + (c.toNat - '0'.toNat)) 0

/-- Python `str.strip()`: drop leading and trailing whitespace. -/
def pyStrip (cs : List Char) : List Char :=
  ((cs.dropWhile isSpaceChar).reverse.dropWhile isSpaceChar).reverse

/-- Lexicographic (code-point) order on strings, as Python compares them and
as pandas sorts group keys and pivot column labels. -/
def charListLt : List Char → List Char → Bool
  | [], [] => false
  | [], _ :: _ => true
  | _ :: _, [] => false
  | a :: as, b :: bs => if a < b then true else if b < a then false else charListLt as bs

def strLt (a b : String) : Bool := charListLt a.toList b.toList

/-! ## Pipeline A (app.py): loading, cleaning, `analyze_booking_data`

A raw CSV row is its three cells in file order; `none` is a cell `read_csv`
loaded as NaN (missing).  `main` renames the columns positionally, so cell 0
is always used as `Hotel Country Name`, cell 1 as `Guests`, cell 2 as
`Room Nights`, whatever the uploaded header said. -/

structure RawRowA where
  c0 : Option String
  c1 : Option String
  c2 : Option String
deriving DecidableEq, Repr

/-- Model of a float literal accepted by `pd.to_numeric(..., errors='coerce')`:
optional sign, integer digits, optional fractional part, surrounding
whitespace ignored; anything else coerces to missing (NaN). -/
def parseUnsigned (cs : List Char) : Option ℚ :=
  let ip := takeRun Char.isDigit cs
  match ip.2 with
  | [] => if ip.1.isEmpty then none else some (digitsVal ip.1 : ℚ)
  | '.' :: r2 =>
    let fp := takeRun Char.isDigit r2
    if fp.2.isEmpty && !(ip.1.isEmpty && fp.1.isEmpty) then
      some ((digitsVal (ip.1 ++ fp.1) : ℚ) / (10 : ℚ) ^ fp.1.length)
    else none
  | _ => none

def parseNumQ (cs : List Char) : Option ℚ :=
  match cs with
  | '-' :: t => (parseUnsigned t).map (fun q => -q)
  | '+' :: t => parseUnsigned t
  | t => parseUnsigned t

def toNumeric : Option String → Option ℚ
  | none => none
  | some s => parseNumQ (pyStrip s.toList)

/-- One cleaned booking record (a row that survived coercion and `dropna`). -/
structure BookingRec where
  country : String
  guests : ℚ
  nights : ℚ
deriving DecidableEq, Repr

/-- Numeric coercion of the two numeric cells followed by `df.dropna()`:
the row survives only when all three cells are present and numeric. -/
def cleanRow (r : RawRowA) : Option BookingRec :=
  match r.c0, toNumeric r.c1, toNumeric r.c2 with
  | some c, some g, some n => some ⟨c, g, n⟩
  | _, _, _ => none

def cleanA (rows : List RawRowA) : List BookingRec :=
  rows.filterMap cleanRow

/-- NumPy/pandas `round` ties-to-even on the scaled value. -/
def roundHalfEven (q : ℚ) : ℤ :=
  if q - (⌊q⌋ : ℚ) < 1 / 2 then ⌊q⌋
  else if 1 / 2 < q - (⌊q⌋ : ℚ) then ⌊q⌋ + 1
  else if ⌊q⌋ % 2 = 0 then ⌊q⌋ else ⌊q⌋ + 1

/-- `.round(2)` -/
def round2 (q : ℚ) : ℚ := ((roundHalfEven (100 * q) : ℤ) : ℚ) / 100

structure CountrySummary where
  country : String
  totalBookings : Nat
  avgGuests : ℚ
  totalGuests : ℚ
  avgStayNights : ℚ
  totalNights : ℚ
deriving DecidableEq, Repr

def groupRows (rs : List BookingRec) (c : String) : List BookingRec :=
  rs.filter (fun r => decide (r.country = c))

/-- The aggregated row of one country: count / mean / sum of guests and
mean / sum of nights, all passed through `.round(2)`. -/
def summaryFor (rs : List BookingRec) (c : String) : CountrySummary :=
  let g := groupRows rs c
  ⟨c, g.length,
    round2 ((g.map (fun r => r.guests)).sum / (g.length : ℚ)),
    round2 (g.map (fun r => r.guests)).sum,
    round2 ((g.map (fun r => r.nights)).sum / (g.length : ℚ)),
    round2 (g.map (fun r => r.nights)).sum⟩

/-- `df.groupby('Hotel Country Name')` sorts the distinct keys ascending
(distinct strings compare strictly, so this order is unique). -/
def groupKeys (rs : List BookingRec) : List String :=
  stableSort strLt (dedupFirstBy id (rs.map (fun r => r.country)))

/-- The per-country table before ranking (one row per group, key order). -/
def countryTable (rs : List BookingRec) : List CountrySummary :=
  (groupKeys rs).map (summaryFor rs)

/-- One admissible outcome of
`.sort_values('Total_Bookings', ascending=False)`: a permutation of the group
table ordered by descending booking count.  The default sort kind fixes no
order among equal counts, so properties about ties are stated over an
arbitrary sorted permutation, not over this choice. -/
def country_data (rs : List BookingRec) : List CountrySummary :=
  stableSort (fun a b => decide (b.totalBookings < a.totalBookings)) (countryTable rs)

/-- The reported top country: first row of the ranked table, or the sentinel
when there are no rows (`country_analysis.iloc[0] ... if not ... else 'N/A'`). -/
def topCountryOf : List CountrySummary → String
  | [] => "N/A"
  | s :: _ => s.country

structure Analysis where
  total_bookings : Nat
  total_countries : Nat
  total_guests : ℚ
  avg_stay : ℚ
  country_table : List CountrySummary
  top_country : String
deriving DecidableEq, Repr

def analyze_booking_data (rs : List BookingRec) : Analysis :=
  ⟨rs.length,
    (country_data rs).length,
    (rs.map (fun r => r.guests)).sum,
    (rs.map (fun r => r.nights)).sum / (rs.length : ℚ),
    country_data rs,
    topCountryOf (country_data rs)⟩

inductive ErrA where
  | schemaError
  | emptyDataset
deriving DecidableEq, Repr

/-- The load/validate/clean/analyze path of `main` (app.py lines 216-246):
reject unless exactly 3 columns, rename positionally, coerce, drop invalid
rows, reject an empty result, else analyze. -/
def mainA (hdr : List String) (rows : List RawRowA) : Except ErrA Analysis :=
  if hdr.length ≠ 3 then .error .schemaError
  else if (cleanA rows).isEmpty then .error .emptyDataset
  else .ok (analyze_booking_data (cleanA rows))

/-! ## Calendar model

Dates are proleptic-Gregorian day ordinals (day 1 = 0001-01-01), the ordering
key behind every pandas `Timestamp` the source produces.  The formulas are
those of `datetime.date.toordinal` and of CPython/pandas `strptime` week
resolution (`%Y-W%W-%w` with `%w = 1`). -/

def isLeapYear (y : Nat) : Bool :=
  y % 4 == 0 && (y % 100 != 0 || y % 400 == 0)

def daysBeforeMonth (m : Nat) : Nat :=
  [0, 0, 31, 59, 90, 120, 151, 181, 212, 243, 273, 304, 334].getD m 0

def toOrdinal (y m d : Nat) : Int :=
  (365 * (y - 1) + (y - 1) / 4 - (y - 1) / 100 + (y - 1) / 400
    + daysBeforeMonth m + (if 2 < m && isLeapYear y then 1 else 0) + d : Nat)

/-- Weekday of January 1st of `y`, Monday = 0 (as `%W` weeks start). -/
def jan1Weekday (y : Nat) : Int :=
  (toOrdinal y 1 1 - 1) % 7

/-- The instant `strptime('{y}-W{w}-1', '%Y-W%W-%w')` resolves to: the Monday
of week `w` of year `y`, where week 1 is the first week with a Monday and
week 0 dates fall before it (possibly in the previous year). -/
def weekStartOrdinal (y w : Nat) : Int :=
  if w == 0 then toOrdinal y 1 1 - jan1Weekday y
  else toOrdinal y 1 1 + (7 - jan1Weekday y) % 7 + 7 * ((w : Int) - 1)

/-- pandas timestamps are nanosecond-bounded (`Timestamp.min` is
1677-09-21 00:12:43, `Timestamp.max` is 2262-04-11 23:47:16): a midnight date
is representable exactly when it lies in the days 1677-09-22 through
2262-04-11.  Outside this range `to_datetime` raises `OutOfBoundsDatetime`,
which the week path catches (bare `except` → NaT) and the month path coerces
(`errors='coerce'` → NaT). -/
def inTimestampBounds (d : Int) : Bool :=
  decide (toOrdinal 1677 9 22 ≤ d) && decide (d ≤ toOrdinal 2262 4 11)

/-! ## Pipeline B (app2.py): `parse_week`, month parsing, `process_data` -/

/-- The match of `re.match(r'Week\s+(\d+)\s+(\d{4})', s)` on the stripped
label: the literal word `Week`, whitespace, a digit run (the week number),
whitespace, then four digits (the year).  `re.match` anchors at the start
only, so trailing text after the four year digits is ignored. -/
def weekTokens (cs : List Char) : Option (Nat × Nat) :=
  match cs with
  | 'W' :: 'e' :: 'e' :: 'k' :: rest =>
    let s1 := takeRun isSpaceChar rest
    if s1.1.isEmpty then none
    else
      let ds := takeRun Char.isDigit s1.2
      if ds.1.isEmpty then none
      else
        let s2 := takeRun isSpaceChar ds.2
        if s2.1.isEmpty then none
        else
          match s2.2 with
          | a :: b :: c :: d :: _ =>
            if a.isDigit && b.isDigit && c.isDigit && d.isDigit then
              some (digitsVal ds.1, digitsVal [a, b, c, d])
            else none
          | _ => none
  | _ => none

/-- Whether the `%W` field of `strptime` accepts the zero-padded week number:
its pattern is the alternation `5[0-3] | [0-4]\d | \d` matched against
`'{w:02d}'` followed by a literal `-`, so exactly the values 0..53 pass and
anything larger makes `pd.to_datetime` raise (caught, giving NaT). -/
def acceptWeekField (w : Nat) : Bool :=
  if w < 10 then true
  else if w < 100 then decide (w / 10 ≤ 4) || (w / 10 == 5 && decide (w % 10 ≤ 3))
  else false

/-- `parse_week` of app2.py: strip, match the week regex, then resolve
`'{year}-W{week:02d}-1'` with format `'%Y-W%W-%w'`; any failure yields NaT
(`none`): no regex match, a week field outside the `%W` range, a year below
1000 (whose unpadded rendering is shorter than the four digits `%Y`
demands), or a resolved instant outside the pandas timestamp range. -/
def parse_week (s : String) : Option Int :=
  match weekTokens (pyStrip s.toList) with
  | none => none
  | some (w, y) =>
    if acceptWeekField w && decide (1000 ≤ y)
        && inTimestampBounds (weekStartOrdinal y w) then
      some (weekStartOrdinal y w)
    else none

def monthAbbrevs : List (List Char) :=
  [['j', 'a', 'n'], ['f', 'e', 'b'], ['m', 'a', 'r'], ['a', 'p', 'r'],
   ['m', 'a', 'y'], ['j', 'u', 'n'], ['j', 'u', 'l'], ['a', 'u', 'g'],
   ['s', 'e', 'p'], ['o', 'c', 't'], ['n', 'o', 'v'], ['d', 'e', 'c']]

def monthIndex (a b c : Char) : Option Nat :=
  match (monthAbbrevs.indexOf? [a.toLower, b.toLower, c.toLower]) with
  | none => none
  | some i => some (i + 1)

/-- The full match of `strptime`'s `'%b %Y'` pattern on the label: a
case-insensitive three-letter month abbreviation, whitespace, exactly four
digits, nothing after (pandas requires the whole string to match). -/
def monthTokens (cs : List Char) : Option (Nat × Nat) :=
  match cs with
  | a :: b :: c :: rest =>
    match monthIndex a b c with
    | none => none
    | some m =>
      let s1 := takeRun isSpaceChar rest
      if s1.1.isEmpty then none
      else
        match s1.2 with
        | [d1, d2, d3, d4] =>
          if d1.isDigit && d2.isDigit && d3.isDigit && d4.isDigit then
            some (m, digitsVal [d1, d2, d3, d4])
          else none
        | _ => none
  | _ => none

/-- `pd.to_datetime(s, format='%b %Y', errors='coerce')`: the first of the
named month when it is a representable timestamp, else NaT (a non-matching
label and an out-of-range year both coerce to NaT). -/
def parse_month (s : String) : Option Int :=
  match monthTokens s.toList with
  | none => none
  | some (m, y) =>
    if inTimestampBounds (toOrdinal y m 1) then some (toOrdinal y m 1) else none

inductive Mode where
  | week
  | month
deriving DecidableEq, Repr

/-- One row of the pipeline-B frame; columns other than the three required
ones are ignored by the source. -/
structure RowB where
  bookingWeek : Option String
  bookingMonth : Option String
  bookingStatus : Option String
deriving DecidableEq, Repr

def cellFor (mode : Mode) (r : RowB) : Option String :=
  match mode with
  | .week => r.bookingWeek
  | .month => r.bookingMonth

/-- The `Time_Date` value of one cell: NaN cells and unparseable labels give
NaT, never an exception. -/
def parseCell (mode : Mode) : Option String → Option Int
  | none => none
  | some s =>
    match mode with
    | .week => parse_week s
    | .month => parse_month s

/-- A row that survived `dropna(subset=['Time_Date'])`: its original label,
its resolved instant and its status cell. -/
structure ParsedRec where
  label : String
  instant : Int
  status : Option String
deriving DecidableEq, Repr

/-- Label parsing plus `dropna(subset=['Time_Date'])`: rows whose period cell
is missing or unparseable are dropped, the rest keep label, instant, status. -/
def normalize (mode : Mode) (rows : List RowB) : List ParsedRec :=
  rows.filterMap (fun r =>
    match cellFor mode r with
    | none => none
    | some s => (parseCell mode (some s)).map (fun d => ⟨s, d, r.bookingStatus⟩))

/-- One admissible outcome of `df_sorted = df.sort_values('Time_Date')`: a
permutation of the parsed records ordered by ascending instant.  The default
sort kind fixes no order among rows sharing one instant, so properties about
that order are stated over an arbitrary sorted permutation. -/
def dfSorted (mode : Mode) (rows : List RowB) : List ParsedRec :=
  stableSort (fun p q => decide (p.instant < q.instant)) (normalize mode rows)

/-- `bookings_summary`: `groupby([time_column, 'Booking Status'])` drops rows
whose status is NaN. -/
def bookingsSummary (mode : Mode) (rows : List RowB) : List ParsedRec :=
  (dfSorted mode rows).filter (fun p => p.status.isSome)

/-- One admissible outcome of
`df_sorted.drop_duplicates(subset=[time_column]).sort_values('Time_Date')`
as (label, instant) pairs: the distinct period labels ordered by ascending
instant, ties taken here in the order of `dfSorted`; again the program fixes
no order among equal-instant labels. -/
def periodRows (mode : Mode) (rows : List RowB) : List (String × Int) :=
  stableSort (fun a b => decide (a.2 < b.2))
    (dedupFirstBy Prod.fst ((dfSorted mode rows).map (fun p => (p.label, p.instant))))

/-- The pivot's column labels computed from a sorted frame `S`: the distinct
statuses present, sorted ascending as pandas orders pivot columns (distinct
strings compare strictly, so this order is unique). -/
def statusColumnsOf (S : List ParsedRec) : List String :=
  stableSort strLt (dedupFirstBy id (S.filterMap (fun p => p.status)))

/-- One pivot cell computed from a sorted frame `S`: how many parsed rows
carry this (label, status) pair. -/
def cellOf (S : List ParsedRec) (l st : String) : Nat :=
  S.countP (fun p => decide (p.label = l) && decide (p.status = some st))

/-- The pivot `process_data` builds from a sorted frame `S` and a reindexing
row order `T` (the two `sort_values` outcomes): empty when no (label,
status) pair exists; otherwise one row per entry of `T`, one explicit cell
per status column, absent combinations filled with 0 by
`fillna(0)`/`reindex`. -/
def pivotOf (S : List ParsedRec) (T : List (String × Int)) :
    List (String × List (String × Nat)) :=
  if (S.filter (fun p => p.status.isSome)).isEmpty then []
  else T.map (fun pr =>
    (pr.1, (statusColumnsOf S).map (fun st => (st, cellOf S pr.1 st))))

def statusColumns (mode : Mode) (rows : List RowB) : List String :=
  statusColumnsOf (dfSorted mode rows)

def pivotCell (mode : Mode) (rows : List RowB) (l st : String) : Nat :=
  cellOf (dfSorted mode rows) l st

/-- The pivot table `process_data` returns, at the executable choice of sort
outcomes. -/
def pivot_table (mode : Mode) (rows : List RowB) : List (String × List (String × Nat)) :=
  pivotOf (dfSorted mode rows) (periodRows mode rows)

/-- What the module-level code surfaces after `process_data`: the
`st.warning` branch when the pivot is empty (the message text depends only on
the selected mode), the populated pivot otherwise. -/
inductive OutcomeB where
  | warnNoValid (mode : Mode)
  | results (pivot : List (String × List (String × Nat)))
deriving DecidableEq, Repr

def runB (mode : Mode) (rows : List RowB) : OutcomeB :=
  if (pivot_table mode rows).isEmpty then .warnNoValid mode
  else .results (pivot_table mode rows)

inductive TopOutcomeB where
  | schemaError
  | outcome (o : OutcomeB)
deriving DecidableEq, Repr

def requiredColumnsB : List String :=
  ["Booking Week", "Booking Month", "Booking Status"]

/-- The module-level pipeline-B path: reject unless every required column
name is present (order-independent), else process. -/
def mainB (hdr : List String) (mode : Mode) (rows : List RowB) : TopOutcomeB :=
  if requiredColumnsB.all (fun c => decide (c ∈ hdr)) then .outcome (runB mode rows)
  else .schemaError

/-- The caller-visible pipeline-B frame: its rows plus the `Time_Date`
column `process_data` writes into it (`none` before any call). -/
structure DfB where
  rows : List RowB
  timeDateCol : Option (List (Option Int))
deriving DecidableEq, Repr

/-- `process_data` with its effect on the caller's frame made explicit:
`df['Time_Date'] = df[time_column].apply(...)` adds a column to the frame the
caller passed in; the returned frame is what the caller sees afterwards. -/
def process_data (mode : Mode) (df : DfB) :
    (List (String × List (String × Nat))) × DfB :=
  (pivot_table mode df.rows,
    ⟨df.rows, some (df.rows.map (fun r => parseCell mode (cellFor mode r)))⟩)

/-! ## Support lemmas -/

theorem roundHalfEven_intCast (n : ℤ) : roundHalfEven (n : ℚ) = n := by
  simp [roundHalfEven, Int.floor_intCast]

/-- `.round(2)` leaves a value with at most two decimal places unchanged. -/
theorem round2_fix (q : ℚ) (n : ℤ) (h : 100 * q = (n : ℚ)) : round2 q = q := by
  rw [round2, h, roundHalfEven_intCast, ← h]
  ring

/-- The `%W` field of the formatted week accepts exactly the values 0..53. -/
theorem acceptWeekField_eq_true_iff (w : Nat) : acceptWeekField w = true ↔ w ≤ 53 := by
  unfold acceptWeekField
  split
  case isTrue h => simp; omega
  case isFalse h =>
    split
    case isTrue h2 =>
      simp only [Bool.or_eq_true, Bool.and_eq_true, decide_eq_true_eq, beq_iff_eq]
      omega
    case isFalse h2 => simp; omega

/-- Every record the TimeNormalizer emits carries the instant its own label
parses to: the instant is a function of the label. -/
theorem normalize_label_instant (mode : Mode) (rows : List RowB) :
    ∀ q ∈ normalize mode rows, parseCell mode (some q.label) = some q.instant := by
  intro q hq
  rcases List.mem_filterMap.mp hq with ⟨r, _, hfr⟩
  cases hc : cellFor mode r with
  | none => rw [hc] at hfr; exact absurd hfr (by simp)
  | some s =>
    rw [hc] at hfr
    rcases Option.map_eq_some'.mp hfr with ⟨d, hd, rfl⟩
    simpa using hd

theorem length_filterMap_eq_countP (f : α → Option β) (l : List α) :
    (l.filterMap f).length = l.countP (fun a => (f a).isSome) := by
  induction l with
  | nil => rfl
  | cons x xs ih =>
    rw [List.filterMap_cons, List.countP_cons]
    cases hf : f x with
    | none => simp [hf, ih]
    | some b => simp [hf, ih, Nat.add_comm]

/-- For a list of pairs whose second component is a function of the first,
`drop_duplicates` on the first component keeps exactly the pairs present. -/
theorem mem_dedupFirstBy_fst_iff {σ τ : Type} [DecidableEq σ]
    (l : List (σ × τ)) (hcoh : ∀ x ∈ l, ∀ y ∈ l, x.1 = y.1 → x.2 = y.2)
    (a : σ × τ) : a ∈ dedupFirstBy Prod.fst l ↔ a ∈ l := by
  constructor
  · exact fun h => mem_of_mem_dedupFirstByAux Prod.fst [] l a h
  · intro ha
    have h1 : a.1 ∈ l.map Prod.fst := List.mem_map.mpr ⟨a, ha, rfl⟩
    have h2 : a.1 ∈ (dedupFirstBy Prod.fst l).map Prod.fst :=
      (mem_map_key_dedupFirstBy Prod.fst l a.1).mpr h1
    rcases List.mem_map.mp h2 with ⟨b, hb, hba⟩
    have hbl : b ∈ l := mem_of_mem_dedupFirstByAux Prod.fst [] l b hb
    have : b.2 = a.2 := hcoh b hbl a ha hba
    have : b = a := Prod.ext hba this
    exact this ▸ hb

theorem groupKeys_nodup (rs : List BookingRec) : (groupKeys rs).Nodup := by
  have h1 : (dedupFirstBy id (rs.map (fun r => r.country))).Nodup := by
    have := nodup_map_key_dedupFirstBy id (rs.map (fun r => r.country))
    rwa [List.map_id] at this
  exact ((stableSort_perm strLt _).nodup_iff).mpr h1

theorem mem_groupKeys (rs : List BookingRec) (r : BookingRec) (hr : r ∈ rs) :
    r.country ∈ groupKeys rs := by
  have h1 : r.country ∈ rs.map (fun r => r.country) := List.mem_map.mpr ⟨r, hr, rfl⟩
  have h2 : r.country ∈ (dedupFirstBy id (rs.map (fun r => r.country))).map id := by
    rw [mem_map_key_dedupFirstBy]
    simpa using h1
  rw [List.map_id] at h2
  exact ((stableSort_perm strLt _).mem_iff).mpr h2

theorem groupKeys_ne_nil (rs : List BookingRec) (h : rs ≠ []) : groupKeys rs ≠ [] := by
  cases rs with
  | nil => exact absurd rfl h
  | cons r rs' =>
    intro hc
    have := mem_groupKeys (r :: rs') r (List.mem_cons_self _ _)
    rw [hc] at this
    exact List.not_mem_nil _ this

/-! ## Claim theorems -/

/-- C1: for every cleaned pipeline-A input (non-empty after cleaning), the
per-country booking counts produced by the Aggregator sum to the number of
cleaned input records. -/
theorem countrySummary_counts_partition (rs : List BookingRec) (hne : rs ≠ []) :
    ((analyze_booking_data rs).country_table.map (fun s => s.totalBookings)).sum
      = rs.length := by
  have h1 : (analyze_booking_data rs).country_table = country_data rs := rfl
  have h2 : ((country_data rs).map (fun s => s.totalBookings)).sum
      = ((countryTable rs).map (fun s => s.totalBookings)).sum :=
    ((stableSort_perm _ (countryTable rs)).map _).sum_eq
  rw [h1, h2, countryTable, List.map_map]
  have h3 : ((groupKeys rs).map ((fun s => s.totalBookings) ∘ summaryFor rs)).sum
      = ((groupKeys rs).map (fun c => rs.countP (fun r => decide (r.country = c)))).sum := by
    refine congrArg List.sum (List.map_congr_left (fun c _ => ?_))
    simp [summaryFor, groupRows, List.countP_eq_length_filter]
  rw [h3]
  exact sum_countP_keys (groupKeys rs) (groupKeys_nodup rs) rs (fun r => r.country)
    (fun r hr => mem_groupKeys rs r hr)

/-- Witness for C1 at a concrete one-record input. -/
theorem countrySummary_counts_partition_witness :
    ([(⟨"France", 2, 3⟩ : BookingRec)] ≠ [])
    ∧ ((analyze_booking_data [⟨"France", 2, 3⟩]).country_table.map
        (fun s => s.totalBookings)).sum = [(⟨"France", 2, 3⟩ : BookingRec)].length :=
  ⟨by decide, countrySummary_counts_partition [⟨"France", 2, 3⟩] (by decide)⟩

/-- C4 tie fixture: two countries with one booking each. -/
def tieRows : List BookingRec := [⟨"France", 1, 1⟩, ⟨"Spain", 2, 2⟩]

/-- C4 counterexample: `sort_values` with the default kind promises only a
sorted permutation, and with both countries at count 1 the reversed table is
such an outcome: a permutation of the group table, descending in count, yet
its equal-count rows are not in the original group order.  The program
therefore does not guarantee the claimed tie order. -/
theorem ranking_tie_order_not_guaranteed :
    ([summaryFor tieRows "Spain", summaryFor tieRows "France"] : List CountrySummary).Perm
        (countryTable tieRows)
    ∧ List.Pairwise (fun a b => b.totalBookings ≤ a.totalBookings)
        [summaryFor tieRows "Spain", summaryFor tieRows "France"]
    ∧ [summaryFor tieRows "Spain", summaryFor tieRows "France"].map (fun s => s.country)
        ≠ (countryTable tieRows).map (fun s => s.country) := by
  have hct : countryTable tieRows
      = [summaryFor tieRows "France", summaryFor tieRows "Spain"] := rfl
  refine ⟨?_, ?_, ?_⟩
  · rw [hct]
    exact List.Perm.swap _ _ _
  · refine List.pairwise_cons.mpr ⟨fun b hb => ?_, List.pairwise_singleton _ _⟩
    rcases List.mem_singleton.mp hb with rfl
    decide
  · rw [hct]
    decide

/-- C4 (amended): any admissible ranking outcome - a permutation of the
per-country group table that is descending in booking count, which is all
the default sort kind of `sort_values` guarantees (no tie order) - is
non-empty for non-empty input and reports its own first row's country as the
top country; the Aggregator's own table is one such outcome, its reported
top country is the first row of its table, and the sentinel is returned for
an empty table. -/
theorem country_ranking_spec (rs : List BookingRec) (out : List CountrySummary)
    (hne : rs ≠ [])
    (hperm : out.Perm (countryTable rs))
    (hsorted : List.Pairwise (fun a b => b.totalBookings ≤ a.totalBookings) out) :
    out ≠ []
    ∧ (∀ s rest, out = s :: rest → topCountryOf out = s.country)
    ∧ List.Pairwise (fun a b => b.totalBookings ≤ a.totalBookings)
        ((analyze_booking_data rs).country_table)
    ∧ (analyze_booking_data rs).country_table.Perm (countryTable rs)
    ∧ (analyze_booking_data rs).top_country
        = topCountryOf ((analyze_booking_data rs).country_table)
    ∧ topCountryOf [] = "N/A" := by
  have hct : (analyze_booking_data rs).country_table = country_data rs := rfl
  refine ⟨?_, ?_, ?_, ?_, rfl, rfl⟩
  · intro hc
    rw [hc] at hperm
    have h0 : countryTable rs = [] := hperm.symm.eq_nil
    have h1 : groupKeys rs = [] := List.map_eq_nil_iff.mp h0
    exact groupKeys_ne_nil rs hne h1
  · intro s rest h
    rw [h]
    rfl
  · rw [hct, country_data]
    have hpw := pairwise_stableSort
      (fun a b => decide (b.totalBookings < a.totalBookings))
      (fun a b h => by
        simp only [decide_eq_true_eq] at h
        simp only [decide_eq_false_iff_not]
        omega)
      (fun a b c h1 h2 => by
        simp only [decide_eq_false_iff_not] at h1 h2 ⊢
        omega)
      (countryTable rs)
    exact hpw.imp (fun h => by
      simp only [decide_eq_false_iff_not] at h
      omega)
  · rw [hct, country_data]
    exact stableSort_perm _ _

/-- Witness for C4 at a concrete input with distinct counts, taking the
group table itself (already descending) as the admissible outcome. -/
theorem country_ranking_spec_witness :
    (([⟨"France", 2, 3⟩, ⟨"France", 1, 5⟩, ⟨"Spain", 4, 2⟩] : List BookingRec) ≠ []
    ∧ (countryTable [⟨"France", 2, 3⟩, ⟨"France", 1, 5⟩, ⟨"Spain", 4, 2⟩]).Perm
        (countryTable [⟨"France", 2, 3⟩, ⟨"France", 1, 5⟩, ⟨"Spain", 4, 2⟩])
    ∧ List.Pairwise (fun a b => b.totalBookings ≤ a.totalBookings)
        (countryTable [⟨"France", 2, 3⟩, ⟨"France", 1, 5⟩, ⟨"Spain", 4, 2⟩]))
    ∧ (countryTable [⟨"France", 2, 3⟩, ⟨"France", 1, 5⟩, ⟨"Spain", 4, 2⟩] ≠ []
    ∧ (∀ s rest, countryTable [⟨"France", 2, 3⟩, ⟨"France", 1, 5⟩, ⟨"Spain", 4, 2⟩] = s :: rest →
        topCountryOf (countryTable [⟨"France", 2, 3⟩, ⟨"France", 1, 5⟩, ⟨"Spain", 4, 2⟩]) = s.country)
    ∧ List.Pairwise (fun a b => b.totalBookings ≤ a.totalBookings)
        ((analyze_booking_data [⟨"France", 2, 3⟩, ⟨"France", 1, 5⟩, ⟨"Spain", 4, 2⟩]).country_table)
    ∧ (analyze_booking_data [⟨"France", 2, 3⟩, ⟨"France", 1, 5⟩, ⟨"Spain", 4, 2⟩]).country_table.Perm
        (countryTable [⟨"France", 2, 3⟩, ⟨"France", 1, 5⟩, ⟨"Spain", 4, 2⟩])
    ∧ (analyze_booking_data [⟨"France", 2, 3⟩, ⟨"France", 1, 5⟩, ⟨"Spain", 4, 2⟩]).top_country
        = topCountryOf ((analyze_booking_data [⟨"France", 2, 3⟩, ⟨"France", 1, 5⟩, ⟨"Spain", 4, 2⟩]).country_table)
    ∧ topCountryOf [] = "N/A") :=
  ⟨⟨by decide, List.Perm.refl _, by decide⟩,
    country_ranking_spec [⟨"France", 2, 3⟩, ⟨"France", 1, 5⟩, ⟨"Spain", 4, 2⟩]
      (countryTable [⟨"France", 2, 3⟩, ⟨"France", 1, 5⟩, ⟨"Spain", 4, 2⟩])
      (by decide) (List.Perm.refl _) (by decide)⟩

/-- The spec's end-to-end scenario 1 input. -/
def scenarioRows : List BookingRec :=
  [⟨"France", 2, 3⟩, ⟨"France", 1, 5⟩, ⟨"Spain", 4, 2⟩]

theorem summaryFor_scenario_france :
    summaryFor scenarioRows "France" = ⟨"France", 2, 3 / 2, 3, 4, 8⟩ := by
  have hg : groupRows scenarioRows "France" = [⟨"France", 2, 3⟩, ⟨"France", 1, 5⟩] := rfl
  simp only [summaryFor, hg, CountrySummary.mk.injEq]
  norm_num
  exact ⟨round2_fix (3 / 2) 150 (by norm_num), round2_fix 3 300 (by norm_num),
    round2_fix 4 400 (by norm_num), round2_fix 8 800 (by norm_num)⟩

theorem summaryFor_scenario_spain :
    summaryFor scenarioRows "Spain" = ⟨"Spain", 1, 4, 4, 2, 2⟩ := by
  have hg : groupRows scenarioRows "Spain" = [⟨"Spain", 4, 2⟩] := rfl
  simp only [summaryFor, hg, CountrySummary.mk.injEq]
  norm_num
  exact ⟨round2_fix 4 400 (by norm_num), round2_fix 2 200 (by norm_num)⟩

/-- C9: on the rows France(2 guests, 3 nights), France(1, 5), Spain(4, 2) the
Aggregator reports France with count 2, guest sum 3, guest mean 1.5, night
sum 8, night mean 4.0 and Spain with count 1, guest sum 4, guest mean 4.0,
night sum 2, night mean 2.0, France ranked first, means at 2-decimal
precision. -/
theorem scenario1_analysis :
    analyze_booking_data scenarioRows
      = ⟨3, 2, 7, 10 / 3,
          [⟨"France", 2, 3 / 2, 3, 4, 8⟩, ⟨"Spain", 1, 4, 4, 2, 2⟩], "France"⟩ := by
  have hct : country_data scenarioRows
      = [summaryFor scenarioRows "France", summaryFor scenarioRows "Spain"] := rfl
  simp only [analyze_booking_data, hct, summaryFor_scenario_france,
    summaryFor_scenario_spain, topCountryOf, Analysis.mk.injEq]
  simp only [scenarioRows, List.map_cons, List.map_nil, List.length_cons,
    List.length_nil, List.sum_cons, List.sum_nil]
  norm_num

/-- C6/C10 fixture: a row whose guest cell is not numeric. -/
def badGuestRow : RawRowA := ⟨some "France", some "abc", some "3"⟩

/-- C6: a non-numeric Guests or Room Nights value coerces to missing and the
row is dropped entirely from cleaning (never coerced to 0), and with a valid
3-column header the run fails with the empty-dataset error exactly when no
rows survive cleaning. -/
theorem cleaning_drop_and_empty_error (hdr : List String) (rows pre post : List RawRowA)
    (r : RawRowA) (h3 : hdr.length = 3)
    (hbad : toNumeric r.c1 = none ∨ toNumeric r.c2 = none) :
    cleanA (pre ++ r :: post) = cleanA (pre ++ post)
    ∧ (mainA hdr rows = .error .emptyDataset ↔ cleanA rows = []) := by
  constructor
  · have hr : cleanRow r = none := by
      rcases hbad with h | h
      · cases hc0 : r.c0 <;> cases hc2 : toNumeric r.c2 <;> simp [cleanRow, h, hc0, hc2]
      · cases hc0 : r.c0 <;> cases hc1 : toNumeric r.c1 <;> simp [cleanRow, h, hc0, hc1]
    rw [cleanA, cleanA, List.filterMap_append, List.filterMap_append,
      List.filterMap_cons, hr]
  · rw [mainA, if_neg (by omega)]
    by_cases he : (cleanA rows).isEmpty
    · rw [if_pos he]
      simp [List.isEmpty_iff.mp he]
    · rw [if_neg he]
      constructor
      · intro hc
        exact absurd hc (by simp)
      · intro hc
        exact absurd (List.isEmpty_iff.mpr hc) he

/-- Witness for C6: the boundary dataset with a single non-numeric-guest row
is dropped entirely and the run reports the empty-dataset error. -/
theorem cleaning_drop_and_empty_error_witness :
    (["Hotel Country Name", "Guests", "Room Nights"] : List String).length = 3
    ∧ (toNumeric badGuestRow.c1 = none ∨ toNumeric badGuestRow.c2 = none)
    ∧ (cleanA ([] ++ badGuestRow :: []) = cleanA ([] ++ [])
      ∧ (mainA ["Hotel Country Name", "Guests", "Room Nights"] [badGuestRow]
          = .error .emptyDataset ↔ cleanA [badGuestRow] = [])) :=
  ⟨rfl, Or.inl (by decide),
    cleaning_drop_and_empty_error ["Hotel Country Name", "Guests", "Room Nights"]
      [badGuestRow] [] [] badGuestRow rfl (Or.inl (by decide))⟩

/-- C10: pipeline A's cleaning drops a row whose country cell is missing even
when both numeric cells hold valid numbers. -/
theorem missing_country_dropped (pre post : List RawRowA) (cg cn : String)
    (hg : (toNumeric (some cg)).isSome = true)
    (hn : (toNumeric (some cn)).isSome = true) :
    cleanA (pre ++ (⟨none, some cg, some cn⟩ : RawRowA) :: post)
      = cleanA (pre ++ post) := by
  have hr : cleanRow ⟨none, some cg, some cn⟩ = none := by
    cases h1 : toNumeric (some cg) <;> cases h2 : toNumeric (some cn) <;>
      simp [cleanRow, h1, h2]
  rw [cleanA, cleanA, List.filterMap_append, List.filterMap_append,
    List.filterMap_cons, hr]

/-- Witness for C10: numeric guests "2" and nights "3" but a missing country. -/
theorem missing_country_dropped_witness :
    (toNumeric (some "2")).isSome = true
    ∧ (toNumeric (some "3")).isSome = true
    ∧ cleanA ([] ++ (⟨none, some "2", some "3"⟩ : RawRowA) :: []) = cleanA ([] ++ []) :=
  ⟨by decide, by decide, missing_country_dropped [] [] "2" "3" (by decide) (by decide)⟩

/-- C8: pipeline A fails with the schema error exactly when the column count
differs from 3 and otherwise ignores the header text entirely (positional
renaming accepts any 3-column file); pipeline B fails with the schema error
exactly when some required named column is absent, independently of column
order. -/
theorem schema_validation_spec (hdrA hdrA' : List String) (rowsA : List RawRowA)
    (hdrB : List String) (mode : Mode) (rowsB : List RowB) :
    ((mainA hdrA rowsA = .error .schemaError) ↔ hdrA.length ≠ 3)
    ∧ (hdrA.length = 3 → hdrA'.length = 3 → mainA hdrA rowsA = mainA hdrA' rowsA)
    ∧ ((mainB hdrB mode rowsB = .schemaError) ↔ ¬ (∀ c ∈ requiredColumnsB, c ∈ hdrB))
    ∧ (∀ hdrB' : List String, hdrB.Perm hdrB' →
        mainB hdrB mode rowsB = mainB hdrB' mode rowsB) := by
  refine ⟨?_, ?_, ?_, ?_⟩
  · rw [mainA]
    by_cases h : hdrA.length ≠ 3
    · simp [h]
    · rw [if_neg h]
      by_cases he : (cleanA rowsA).isEmpty
      · simp [he, h]
      · simp [he, h]
  · intro h1 h2
    rw [mainA, mainA, if_neg (show ¬hdrA.length ≠ 3 from by omega),
      if_neg (show ¬hdrA'.length ≠ 3 from by omega)]
  · rw [mainB]
    by_cases h : requiredColumnsB.all (fun c => decide (c ∈ hdrB))
    · rw [if_pos h]
      simp only [List.all_eq_true, decide_eq_true_eq] at h
      constructor
      · intro hc
        exact absurd hc (by simp)
      · intro hc
        exact absurd h hc
    · rw [if_neg h]
      simp only [List.all_eq_true, decide_eq_true_eq] at h
      simp [h]
  · intro hdrB' hperm
    rw [mainB, mainB]
    have h1 : (fun c => decide (c ∈ hdrB)) = (fun c => decide (c ∈ hdrB')) := by
      funext c
      by_cases hm : c ∈ hdrB
      · simp [hm, hperm.mem_iff.mp hm]
      · have hm' : c ∉ hdrB' := fun hc => hm (hperm.mem_iff.mpr hc)
        simp [hm, hm']
    rw [h1]

/-- C3 counterexample: the label "Week 99 2024" matches the claimed grammar
`Week <int> <4-digit-year>` (the regex captures week 99, year 2024), yet the
TimeNormalizer resolves it to unparseable, refuting the claimed equivalence. -/
theorem week99_conforms_but_unparseable :
    weekTokens (pyStrip "Week 99 2024".toList) = some (99, 2024)
    ∧ parse_week "Week 99 2024" = none := by
  constructor
  · decide
  · decide

/-- C3 (amended): week-mode parsing is deterministic and total and resolves a
label exactly when the week regex matches a prefix of the stripped label with
a week number of at most 53 (the `%W` field's range), a year of at least
1000 (a smaller year renders shorter than the four digits `%Y` demands), and
a resolved instant inside the pandas timestamp range; month-mode parsing
resolves exactly the full-match month-abbreviation-plus-4-digit-year labels
whose first-of-month lies in that range; and every record whose label fails
to parse is dropped from the normalized batch without any exception, the
rest being kept. -/
theorem parse_totality_amended (mode : Mode) (s : String) (rows : List RowB) :
    ((parse_week s).isSome = true
      ↔ (∃ w y, weekTokens (pyStrip s.toList) = some (w, y) ∧ w ≤ 53 ∧ 1000 ≤ y
          ∧ inTimestampBounds (weekStartOrdinal y w) = true))
    ∧ ((parse_month s).isSome = true
      ↔ (∃ m y, monthTokens s.toList = some (m, y)
          ∧ inTimestampBounds (toOrdinal y m 1) = true))
    ∧ (normalize mode rows).length
        = rows.countP (fun r => (parseCell mode (cellFor mode r)).isSome) := by
  refine ⟨?_, ?_, ?_⟩
  · rw [parse_week]
    split
    case h_1 heq =>
      simp only [Option.isSome_none, Bool.false_eq_true, false_iff]
      rintro ⟨w', y', heq', _⟩
      rw [heq] at heq'
      exact Option.noConfusion heq'
    case h_2 w y heq =>
      by_cases ha : (acceptWeekField w && decide (1000 ≤ y)
          && inTimestampBounds (weekStartOrdinal y w)) = true
      · rw [if_pos ha]
        simp only [Bool.and_eq_true, decide_eq_true_eq] at ha
        simp only [Option.isSome_some, true_iff]
        exact ⟨w, y, heq, (acceptWeekField_eq_true_iff w).mp ha.1.1, ha.1.2, ha.2⟩
      · rw [if_neg ha]
        simp only [Option.isSome_none, Bool.false_eq_true, false_iff]
        rintro ⟨w', y', heq', hle, hy, hb⟩
        rw [heq] at heq'
        have h2 := Option.some.inj heq'
        have hw : w = w' := congrArg Prod.fst h2
        have hyy : y = y' := congrArg Prod.snd h2
        refine ha ?_
        simp only [Bool.and_eq_true, decide_eq_true_eq]
        refine ⟨⟨(acceptWeekField_eq_true_iff w).mpr (by rw [hw]; exact hle),
          by rw [hyy]; exact hy⟩, ?_⟩
        rw [hw, hyy]
        exact hb
  · rw [parse_month]
    split
    case h_1 heq =>
      simp only [Option.isSome_none, Bool.false_eq_true, false_iff]
      rintro ⟨m', y', heq', _⟩
      rw [heq] at heq'
      exact Option.noConfusion heq'
    case h_2 m y heq =>
      by_cases hb : inTimestampBounds (toOrdinal y m 1) = true
      · rw [if_pos hb]
        simp only [Option.isSome_some, true_iff]
        exact ⟨m, y, heq, hb⟩
      · rw [if_neg hb]
        simp only [Option.isSome_none, Bool.false_eq_true, false_iff]
        rintro ⟨m', y', heq', hb'⟩
        rw [heq] at heq'
        have h2 := Option.some.inj heq'
        have hm : m = m' := congrArg Prod.fst h2
        have hy : y = y' := congrArg Prod.snd h2
        refine hb ?_
        rw [hm, hy]
        exact hb'
  · rw [normalize, length_filterMap_eq_countP]
    refine List.countP_congr (fun r _ => ?_)
    cases hc : cellFor mode r <;> simp [hc, parseCell]

/-- C5 counterexample: an input with no rows at all and an input whose rows
all fail week parsing surface the identical warning outcome; the two cases
are not distinguished. -/
theorem empty_file_and_no_valid_periods_same_outcome :
    runB Mode.week [] = runB Mode.week [⟨some "garbled", none, some "Confirmed"⟩]
    ∧ runB Mode.week [] = OutcomeB.warnNoValid Mode.week := by
  constructor
  · decide
  · decide

/-- C5 (amended): whenever zero records remain after period-label parsing the
run fails with the no-valid-data warning for the selected mode (never a
populated pivot); a file with no rows at all produces the same outcome, so
the two cases are not surfaced distinctly. -/
theorem no_valid_periods_warns (mode : Mode) (rows : List RowB)
    (h : normalize mode rows = []) :
    runB mode rows = OutcomeB.warnNoValid mode := by
  have hds : dfSorted mode rows = [] := by rw [dfSorted, h]; rfl
  have hpt : pivot_table mode rows = [] := by
    rw [pivot_table, hds]
    simp [pivotOf]
  rw [runB, hpt]
  simp

/-- Witness for C5's amended theorem at the empty input. -/
theorem no_valid_periods_warns_witness :
    normalize Mode.week [] = []
    ∧ runB Mode.week [] = OutcomeB.warnNoValid Mode.week :=
  ⟨rfl, no_valid_periods_warns Mode.week [] rfl⟩

/-- C7 fixture: a one-row frame that has not been processed yet. -/
def dfFixture : DfB :=
  ⟨[⟨some "Week 1 2024", some "Jan 2024", some "Confirmed"⟩], none⟩

/-- C7 counterexample: `process_data` does not leave its input frame
unchanged — the caller's frame gains a `Time_Date` column. -/
theorem process_data_mutates_frame :
    (process_data Mode.week dfFixture).2 ≠ dfFixture := by
  decide

/-- C7 (amended): `process_data` never alters the input records themselves
and is idempotent and deterministic — it writes the `Time_Date` column into
the caller's frame, and re-running it on the resulting frame returns the
identical pivot and leaves the frame exactly as it was; the Aggregator side
is a pure function of its input. -/
theorem process_data_frame_effect (mode : Mode) (df : DfB) :
    (process_data mode df).2.rows = df.rows
    ∧ (process_data mode df).2.timeDateCol
        = some (df.rows.map (fun r => parseCell mode (cellFor mode r)))
    ∧ process_data mode ((process_data mode df).2)
        = ((process_data mode df).1, (process_data mode df).2) :=
  ⟨rfl, rfl, rfl⟩

theorem label_determines_instant (mode : Mode) (rows : List RowB)
    (p q : ParsedRec) (hp : p ∈ normalize mode rows) (hq : q ∈ normalize mode rows)
    (h : p.label = q.label) : p.instant = q.instant := by
  have h1 := normalize_label_instant mode rows p hp
  have h2 := normalize_label_instant mode rows q hq
  rw [h] at h1
  rw [h1] at h2
  exact Option.some.inj h2

/-- C2 tie fixture: two rows with distinct week labels resolving to the same
instant (2024-01-01 is a Monday, so weeks 0 and 1 of 2024 share it). -/
def tieRowsB : List RowB :=
  [⟨some "Week 1 2024", none, some "Confirmed"⟩,
   ⟨some "Week 0 2024", none, some "Confirmed"⟩]

/-- The parsed frame for `tieRowsB` with its two equal-instant records
reversed: an admissible `sort_values('Time_Date')` outcome (a permutation,
non-decreasing in instant). -/
def tieSortedB : List ParsedRec :=
  [⟨"Week 0 2024", weekStartOrdinal 2024 0, some "Confirmed"⟩,
   ⟨"Week 1 2024", weekStartOrdinal 2024 1, some "Confirmed"⟩]

/-- C2 counterexample: `sort_values` with the default kind promises only a
sorted permutation, and `tieSortedB` is such an outcome for `tieRowsB` -
under it the builder's deduplicated period order differs from the claimed
first-occurrence input order, so the tie order among equal-instant labels is
not a program guarantee. -/
theorem pivot_tie_order_not_guaranteed :
    tieSortedB.Perm (normalize Mode.week tieRowsB)
    ∧ List.Pairwise (fun a b => a.instant ≤ b.instant) tieSortedB
    ∧ (dedupFirstBy Prod.fst (tieSortedB.map (fun p => (p.label, p.instant)))).map Prod.fst
        ≠ (dedupFirstBy Prod.fst
            ((normalize Mode.week tieRowsB).map (fun p => (p.label, p.instant)))).map Prod.fst := by
  refine ⟨?_, by decide, by decide⟩
  have hn : normalize Mode.week tieRowsB
      = [⟨"Week 1 2024", weekStartOrdinal 2024 1, some "Confirmed"⟩,
         ⟨"Week 0 2024", weekStartOrdinal 2024 0, some "Confirmed"⟩] := by decide
  rw [hn, tieSortedB]
  exact List.Perm.swap _ _ _

/-- C2 (amended): for every admissible pair of sort outcomes - `S` any
sorted permutation of the parsed records and `T` any sorted permutation of
the deduplicated (label, instant) pairs of `S`, which is all the default
`sort_values` kind guarantees - the pivot built from them has only
non-negative count cells; every row carries one explicit cell per status
column, showing 0 for any (label, status) pair absent from the input; the
row list is `T` (empty when no (label, status) pair exists), so rows are
non-decreasing in chronological instant; and `T` is a permutation of the
distinct input labels paired with their instants.  The order of
equal-instant labels inside `T` is not fixed by the program. -/
theorem pivot_table_invariants (mode : Mode) (rows : List RowB)
    (S : List ParsedRec) (T : List (String × Int))
    (hSperm : S.Perm (normalize mode rows))
    (hSsort : List.Pairwise (fun a b => a.instant ≤ b.instant) S)
    (hTperm : T.Perm (dedupFirstBy Prod.fst (S.map (fun p => (p.label, p.instant)))))
    (hTsort : List.Pairwise (fun a b => a.2 ≤ b.2) T) :
    (∀ row ∈ pivotOf S T, ∀ cell ∈ row.2, 0 ≤ cell.2)
    ∧ (∀ row ∈ pivotOf S T, row.2.map Prod.fst = statusColumnsOf S)
    ∧ (∀ row ∈ pivotOf S T, ∀ cell ∈ row.2,
        (∀ p ∈ normalize mode rows, ¬(p.label = row.1 ∧ p.status = some cell.1)) →
        cell.2 = 0)
    ∧ T.Perm (dedupFirstBy Prod.fst
        ((normalize mode rows).map (fun p => (p.label, p.instant))))
    ∧ ((pivotOf S T).map Prod.fst
        = if (S.filter (fun p => p.status.isSome)).isEmpty then []
          else T.map Prod.fst) := by
  have hcohS : ∀ x ∈ S.map (fun p => (p.label, p.instant)),
      ∀ y ∈ S.map (fun p => (p.label, p.instant)), x.1 = y.1 → x.2 = y.2 := by
    intro x hx y hy hxy
    rcases List.mem_map.mp hx with ⟨p, hp, rfl⟩
    rcases List.mem_map.mp hy with ⟨q, hq, rfl⟩
    exact label_determines_instant mode rows p q
      (hSperm.mem_iff.mp hp) (hSperm.mem_iff.mp hq) hxy
  have hcohN : ∀ x ∈ (normalize mode rows).map (fun p => (p.label, p.instant)),
      ∀ y ∈ (normalize mode rows).map (fun p => (p.label, p.instant)),
      x.1 = y.1 → x.2 = y.2 := by
    intro x hx y hy hxy
    rcases List.mem_map.mp hx with ⟨p, hp, rfl⟩
    rcases List.mem_map.mp hy with ⟨q, hq, rfl⟩
    exact label_determines_instant mode rows p q hp hq hxy
  refine ⟨?_, ?_, ?_, ?_, ?_⟩
  · intro row _ cell _
    exact Nat.zero_le _
  · intro row hrow
    rw [pivotOf] at hrow
    by_cases hbe : (S.filter (fun p => p.status.isSome)).isEmpty = true
    · rw [if_pos hbe] at hrow
      exact absurd hrow (List.not_mem_nil _)
    · rw [if_neg hbe] at hrow
      rcases List.mem_map.mp hrow with ⟨pr, _, rfl⟩
      rw [List.map_map]
      exact List.map_id _
  · intro row hrow cell hcell habs
    rw [pivotOf] at hrow
    by_cases hbe : (S.filter (fun p => p.status.isSome)).isEmpty = true
    · rw [if_pos hbe] at hrow
      exact absurd hrow (List.not_mem_nil _)
    · rw [if_neg hbe] at hrow
      rcases List.mem_map.mp hrow with ⟨pr, _, rfl⟩
      rcases List.mem_map.mp hcell with ⟨st, hst, rfl⟩
      show cellOf S pr.1 st = 0
      rw [cellOf, hSperm.countP_eq]
      refine List.countP_eq_zero.mpr (fun p hp => ?_)
      simp only [Bool.and_eq_true, decide_eq_true_eq, not_and]
      intro h1 h2
      exact habs p hp ⟨h1, h2⟩
  · have hnd1 : (dedupFirstBy Prod.fst
        (S.map (fun p => (p.label, p.instant)))).Nodup :=
      List.Nodup.of_map Prod.fst (nodup_map_key_dedupFirstBy _ _)
    have hnd2 : (dedupFirstBy Prod.fst
        ((normalize mode rows).map (fun p => (p.label, p.instant)))).Nodup :=
      List.Nodup.of_map Prod.fst (nodup_map_key_dedupFirstBy _ _)
    refine hTperm.trans ?_
    refine (List.perm_ext_iff_of_nodup hnd1 hnd2).mpr (fun a => ?_)
    rw [mem_dedupFirstBy_fst_iff _ hcohS, mem_dedupFirstBy_fst_iff _ hcohN]
    exact (hSperm.map _).mem_iff
  · rw [pivotOf]
    by_cases hbe : (S.filter (fun p => p.status.isSome)).isEmpty = true
    · rw [if_pos hbe, if_pos hbe]
      rfl
    · rw [if_neg hbe, if_neg hbe, List.map_map]
      rfl

/-- Witness fixtures for C2's amended theorem: a one-row input, its parsed
frame and its deduplicated period pair. -/
def wkRow : RowB := ⟨some "Week 1 2024", none, some "Confirmed"⟩

def wkParsed : ParsedRec := ⟨"Week 1 2024", weekStartOrdinal 2024 1, some "Confirmed"⟩

def wkPair : String × Int := ("Week 1 2024", weekStartOrdinal 2024 1)

/-- Witness for C2's amended theorem at a concrete one-row input, taking the
parsed frame itself and its deduplicated pair list as the sort outcomes. -/
theorem pivot_table_invariants_witness :
    (([wkParsed] : List ParsedRec).Perm (normalize Mode.week [wkRow])
    ∧ List.Pairwise (fun a b => a.instant ≤ b.instant) [wkParsed]
    ∧ ([wkPair] : List (String × Int)).Perm
        (dedupFirstBy Prod.fst ([wkParsed].map (fun p => (p.label, p.instant))))
    ∧ List.Pairwise (fun a b => a.2 ≤ b.2) [wkPair])
    ∧ ((∀ row ∈ pivotOf [wkParsed] [wkPair], ∀ cell ∈ row.2, 0 ≤ cell.2)
    ∧ (∀ row ∈ pivotOf [wkParsed] [wkPair], row.2.map Prod.fst = statusColumnsOf [wkParsed])
    ∧ (∀ row ∈ pivotOf [wkParsed] [wkPair], ∀ cell ∈ row.2,
        (∀ p ∈ normalize Mode.week [wkRow], ¬(p.label = row.1 ∧ p.status = some cell.1)) →
        cell.2 = 0)
    ∧ ([wkPair] : List (String × Int)).Perm (dedupFirstBy Prod.fst
        ((normalize Mode.week [wkRow]).map (fun p => (p.label, p.instant))))
    ∧ ((pivotOf [wkParsed] [wkPair]).map Prod.fst
        = if (([wkParsed] : List ParsedRec).filter (fun p => p.status.isSome)).isEmpty then []
          else ([wkPair] : List (String × Int)).map Prod.fst)) :=
  ⟨⟨by decide, by decide, by decide, by decide⟩,
    pivot_table_invariants Mode.week [wkRow] [wkParsed] [wkPair]
      (by decide) (by decide) (by decide) (by decide)⟩
